/-
  Verification of the content catalog core of kolibri/core/content/models.py:
  the nested-set content tree (descendant queries, bulk tree building with
  space-making), content_id deduplication, the bitmask label index, the local
  file store garbage collection, and the content request ledger.

  Database rows are modelled as Lean structures, querysets as lists of rows,
  and each queryset method as a pure function on those lists.
-/
import Mathlib

namespace Kolibri

/-- A ContentNode row: the fields relevant to the tree, dedup and label
queries.  `kind` is the content kind string (`"topic"` for topics);
`content_id` is the logical identity shared by copies of a resource. -/
structure CNode where
  id : Nat
  tree_id : Nat
  lft : Nat
  rght : Nat
  level : Nat
  kind : String
  content_id : Nat
  available : Bool
  deriving DecidableEq

/-- `ContentNode.get_descendant_content_ids` (models.py lines 225-234):
`ContentNode.objects.filter(lft__gte=self.lft, lft__lte=self.rght)
 .exclude(kind=content_kinds.TOPIC).values_list("content_id", flat=True)`.
`all` is the full ContentNode table. -/
def get_descendant_content_ids (all : List CNode) (node : CNode) : List Nat :=
  ((all.filter (fun n => decide (node.lft ≤ n.lft ∧ n.lft ≤ node.rght))).filter
    (fun n => !(n.kind == "topic"))).map (fun n => n.content_id)

/-- The descendant query as the spec words it: additionally restricted to the
node's own `tree_id`.  Used to compare against the source function. -/
def spec_descendant_content_ids (all : List CNode) (node : CNode) : List Nat :=
  ((all.filter (fun n =>
      decide (n.tree_id = node.tree_id ∧ node.lft ≤ n.lft ∧ n.lft ≤ node.rght))).filter
    (fun n => !(n.kind == "topic"))).map (fun n => n.content_id)

/-- Minimum of a list of naturals (0 on the empty list); stands for SQL
`Min` over a nonempty GROUP BY group. -/
def listMin : List Nat → Nat
  | [] => 0
  | x :: xs => xs.foldl (fun a b => if a ≤ b then a else b) x

/-- `self.values("content_id").annotate(node_id=Min("id"))
.values_list("node_id", flat=True)` (models.py lines 80-84): one minimum id
per distinct content_id of the queryset. -/
def groupMinIds (qs : List CNode) : List Nat :=
  ((qs.map (fun n => n.content_id)).dedup).map (fun c =>
    listMin ((qs.filter (fun n => n.content_id == c)).map (fun n => n.id)))

/-- Modelled from the spec: `filter_by_uuids` comes from
`FilterByUUIDQuerysetMixin` (kolibri.core.mixins, not under src); the spec
describes it as filtering the original query down to the given id set. -/
def filter_by_uuids (qs : List CNode) (ids : List Nat) : List CNode :=
  qs.filter (fun n => ids.contains n.id)

/-- Stable insertion of a row into a list already ordered by `content_id`:
the row goes before the first element whose `content_id` is not smaller. -/
def insertByContentId (x : CNode) : List CNode → List CNode
  | [] => [x]
  | y :: ys =>
    if y.content_id < x.content_id then y :: insertByContentId x ys
    else x :: y :: ys

/-- `order_by("content_id")`: a stable sort on `content_id`. -/
def orderByContentId : List CNode → List CNode
  | [] => []
  | x :: xs => insertByContentId x (orderByContentId xs)

/-- Keep the first row carrying each `content_id`, scanning left to right;
`seen` holds the content_ids already emitted. -/
def distinctOnAux (seen : List Nat) : List CNode → List CNode
  | [] => []
  | x :: xs =>
    if seen.contains x.content_id then distinctOnAux seen xs
    else x :: distinctOnAux (x.content_id :: seen) xs

/-- Postgres `distinct("content_id")` on a queryset ordered by `content_id`:
one row per `content_id` group, the first of each group in scan order. -/
def distinctOnContentId (l : List CNode) : List CNode :=
  distinctOnAux [] l

/-- `ContentNodeQueryset.dedupe_by_content_id` (models.py lines 67-89).
`vendor` is `connection.vendor`; `allRows` is the whole ContentNode table
(`self.model.objects`), `qs` the receiver queryset.  The function returns
no queryset at all (`none`) when no branch is taken. -/
def dedupe_by_content_id (vendor : String) (use_distinct : Bool)
    (allRows qs : List CNode) : Option (List CNode) :=
  if vendor = "sqlite" ∨ use_distinct = false then
    if vendor = "postgresql" then
      some (filter_by_uuids qs
        ((distinctOnContentId (orderByContentId allRows)).map (fun n => n.id)))
    else
      some (filter_by_uuids qs (groupMinIds qs))
  else if vendor = "postgresql" then
    some (distinctOnContentId (orderByContentId qs))
  else
    none

/- ===== Tree building (ContentNodeManager.build_tree_nodes) ===== -/

/-- The nested description handed to `build_tree_nodes`: each element
optionally carries a list of children (the other dict attributes play no
role in coordinate assignment). -/
inductive TreeData where
  | node (children : List TreeData)

/-- An MPTT node as produced by `build_tree_nodes`: just the four
coordinate fields the traversal assigns. -/
structure MPTTNode where
  tree_id : Nat
  level : Nat
  lft : Nat
  rght : Nat
  deriving DecidableEq

mutual
/-- Number of nodes in a nested description. -/
def sizeTD : TreeData → Nat
  | .node cs => 1 + sizeListTD cs

/-- Number of nodes in a list of nested descriptions. -/
def sizeListTD : List TreeData → Nat
  | [] => 0
  | c :: cs => sizeTD c + sizeListTD cs
end

mutual
/-- The inner `treeify` closure of `build_tree_nodes` (models.py lines
157-169): enter a node at `cursor` (setting `lft`), walk the children with
the cursor incremented on each entry, then increment once more on leaving
(setting `rght`).  Returns the preorder stack and the final cursor. -/
def treeify (tid : Nat) (t : TreeData) (cursor level : Nat) :
    List MPTTNode × Nat :=
  match t with
  | .node cs =>
    let r := treeifyChildren tid cs cursor level
    (⟨tid, level, cursor, r.2 + 1⟩ :: r.1, r.2 + 1)

/-- The `for child in children` loop of `treeify`: each child is entered at
the previous child's final cursor plus one. -/
def treeifyChildren (tid : Nat) (cs : List TreeData) (cursor level : Nat) :
    List MPTTNode × Nat :=
  match cs with
  | [] => ([], cursor)
  | c :: rest =>
    let r1 := treeify tid c (cursor + 1) (level + 1)
    let r2 := treeifyChildren tid rest r1.2 level
    (r1.1 ++ r2.1, r2.2)
end

/-- The `target`/`position` dispatch of `build_tree_nodes` (models.py lines
136-149): the initial cursor and level for the traversal. -/
def insertionCursorLevel (target : MPTTNode) (position : String) : Nat × Nat :=
  if position = "left" then (target.lft, target.level)
  else if position = "right" then (target.rght + 1, target.level)
  else if position = "first-child" then (target.lft + 1, target.level + 1)
  else (target.rght, target.level + 1)

/-- Modelled from the spec: `self._create_space(size, offset, tree_id)` lives
in the vendored mptt `TreeManager`, not under src.  The spec: every existing
node of the target tree whose `lft`/`rght` is at or beyond the insertion
cursor (i.e. strictly beyond `offset = cursor - 1`) is shifted right by
`size`. -/
def create_space (size offset tid : Nat) (nodes : List MPTTNode) :
    List MPTTNode :=
  nodes.map (fun n =>
    if n.tree_id = tid then
      { n with
        lft := if offset < n.lft then n.lft + size else n.lft
        rght := if offset < n.rght then n.rght + size else n.rght }
    else n)

/-- `ContentNodeManager.build_tree_nodes` (models.py lines 130-176) acting on
a table `existing` of already stored rows.  Returns the updated existing rows
(after space making, when a `target` is given) together with the freshly
built preorder stack.  `next_tree_id` stands for `self._get_next_tree_id()`,
used only when no target is given. -/
def build_tree_nodes (existing : List MPTTNode) (next_tree_id : Nat)
    (data : TreeData) (target : Option MPTTNode) (position : String) :
    List MPTTNode × List MPTTNode :=
  match target with
  | none =>
    (existing, (treeify next_tree_id data 1 0).1)
  | some t =>
    let cl := insertionCursorLevel t position
    let stack := (treeify t.tree_id data cl.1 cl.2).1
    (create_space (2 * stack.length) (cl.1 - 1) t.tree_id existing, stack)

/- ===== Label index (ContentNodeQueryset.has_all_labels) ===== -/

/-- One entry of `metadata_bitmasks[field_name]`: a label together with its
`bitmask_field_name` and `bits` (its bit weight). -/
structure LabelEntry where
  label : String
  bitmask_field_name : String
  bits : Nat
  deriving DecidableEq

/-- Modelled from the spec: `metadata_bitmasks` is built in
`kolibri.core.content.utils.search` (not under src); the spec describes it as
a static registry mapping each label to a field name and a single bit weight
within that field. -/
abbrev LabelRegistry := List LabelEntry

/-- `label in bitmasks` / `bitmasks[label]` lookup. -/
def lookupLabel (reg : LabelRegistry) (label : String) : Option LabelEntry :=
  reg.find? (fun e => e.label == label)

/-- `bits[f] += b` on the Python dict `bits`, preserving insertion order of
keys and adding into an existing entry. -/
def upsertBits : List (String × Nat) → String → Nat → List (String × Nat)
  | [], f, b => [(f, b)]
  | (g, v) :: rest, f, b =>
    if g = f then (g, v + b) :: rest else (g, v) :: upsertBits rest f b

/-- The first loop of `has_all_labels` (models.py lines 99-105): accumulate,
per bitmask field, the arithmetic sum of the bit weights of the requested
labels found in the registry. -/
def accumulate_bits (reg : LabelRegistry) (labels : List String) :
    List (String × Nat) :=
  labels.foldl (fun acc label =>
    match lookupLabel reg label with
    | some e => upsertBits acc e.bitmask_field_name e.bits
    | none => acc) []

/-- `ContentNodeQueryset.has_all_labels` (models.py lines 97-114) as the
membership predicate it induces on one node: for every accumulated field,
`F(bitmask_fieldname).bitand(bits) > 0`.  A node is its bitmask field
valuation. -/
def has_all_labels (reg : LabelRegistry) (labels : List String)
    (node : String → Nat) : Bool :=
  (accumulate_bits reg labels).all (fun fm => decide (0 < node fm.1 &&& fm.2))

/-- The requested labels that are present in the registry, as registry
entries. -/
def requestedEntries (reg : LabelRegistry) (labels : List String) :
    List LabelEntry :=
  labels.filterMap (lookupLabel reg)

/-- The spec's combined mask for one field: OR together the bit weights of
the requested labels assigned to that field. -/
def fieldMask (reg : LabelRegistry) (labels : List String) (f : String) :
    Nat :=
  (((requestedEntries reg labels).filter
      (fun e => e.bitmask_field_name == f)).map (fun e => e.bits)).foldr
    (fun b m => b ||| m) 0

/-- The spec's matching predicate: for every field group present in the
request, the node's field value ANDed with that field's combined mask is
nonzero. -/
def spec_matches (reg : LabelRegistry) (labels : List String)
    (node : String → Nat) : Prop :=
  ∀ f ∈ (requestedEntries reg labels).map (fun e => e.bitmask_field_name),
    node f &&& fieldMask reg labels f ≠ 0

/-- Well-formedness of the registry, as the spec states it: labels are
unique, each bit weight is a single set bit of a 64-bit field, and within one
field distinct entries use distinct bits. -/
abbrev WellFormedRegistry (reg : LabelRegistry) : Prop :=
  (reg.map (fun e => e.label)).Nodup ∧
  (∀ e ∈ reg, ∃ k, k < 64 ∧ e.bits = 2 ^ k) ∧
  ∀ e₁ ∈ reg, ∀ e₂ ∈ reg,
    e₁.bitmask_field_name = e₂.bitmask_field_name → e₁.bits = e₂.bits →
      e₁ = e₂

/-- The value stored for key `f` in the Python dict `bits`
(`none` when the key is absent). -/
def accFun (l : List (String × Nat)) (f : String) : Option Nat :=
  (l.find? (fun p => p.1 == f)).map Prod.snd

/-- Total version of `accFun`, defaulting to 0. -/
def accVal (l : List (String × Nat)) (f : String) : Nat :=
  (accFun l f).getD 0

/-- The field names present in the Python dict `bits`. -/
def keysOf (l : List (String × Nat)) : List String := l.map Prod.fst

/-- The arithmetic sum of the bit weights of the requested labels assigned
to field `f`: what the `+=` loop of `has_all_labels` accumulates. -/
def sumMask (reg : LabelRegistry) (labels : List String) (f : String) :
    Nat :=
  (((requestedEntries reg labels).filter
      (fun e => e.bitmask_field_name == f)).map (fun e => e.bits)).sum

/- ===== File store (LocalFileQueryset) ===== -/

/-- A LocalFile row. -/
structure LocalFileR where
  id : Nat
  available : Bool
  deriving DecidableEq

/-- A File row: the join entity from a ContentNode to a LocalFile.
`local_file` and `contentnode` are foreign keys. -/
structure FileR where
  id : Nat
  local_file : Nat
  contentnode : Nat
  deriving DecidableEq

/-- The relational state the file store reads: the three tables. -/
structure Store where
  localfiles : List LocalFileR
  files : List FileR
  nodes : List CNode
  deriving DecidableEq

/-- The File rows referencing a given LocalFile (the reverse `files`
relation). -/
def refsOf (s : Store) (lfid : Nat) : List FileR :=
  s.files.filter (fun f => f.local_file == lfid)

/-- The join `files__contentnode__available=b` for one LocalFile: some
referencing File row joins to a ContentNode row with the given
availability. -/
def hasRefWithNodeAvail (s : Store) (lfid : Nat) (b : Bool) : Bool :=
  (refsOf s lfid).any (fun f =>
    s.nodes.any (fun n => n.id == f.contentnode && n.available == b))

/-- `LocalFileQueryset.get_unused_files` (models.py lines 292-300):
`filter(id__in=ids).exclude(files__contentnode__available=True)
 .filter(available=True)` where `ids` selects LocalFiles with some
unavailable referencing node or no referencing File at all. -/
def get_unused_files (s : Store) : List LocalFileR :=
  (((s.localfiles.filter (fun lf =>
      hasRefWithNodeAvail s lf.id false || (refsOf s lf.id).isEmpty)).filter
    (fun lf => !hasRefWithNodeAvail s lf.id true)).filter
    (fun lf => lf.available))

/-- The spec's characterisation of an unused file: currently available, and
either every referencing File row points to an unavailable node, or no File
row references it at all. -/
def spec_unused (s : Store) (lf : LocalFileR) : Prop :=
  lf.available = true ∧
    ((∀ f ∈ refsOf s lf.id, ∀ n ∈ s.nodes,
        n.id = f.contentnode → n.available = false) ∨
      refsOf s lf.id = [])

/-- Referential integrity of the store: every File row joins to an existing
ContentNode row. -/
abbrev StoreIntegrity (s : Store) : Prop :=
  ∀ f ∈ s.files, ∃ n ∈ s.nodes, n.id = f.contentnode

/-- Outcome of `os.remove` on one stored file, through the external path
resolver: success, or one of the exception classes the except clause catches
(`IOError`/`OSError`, or `InvalidStorageFilenameError` raised while deriving
the filename). -/
inductive RemoveOutcome where
  | ok
  | ioError
  | invalidName
  deriving DecidableEq

/-- `LocalFileQueryset.delete_unused_files` (models.py lines 277-284), fully
consumed.  `disk` gives the `os.remove` outcome per LocalFile id.  Yields
`(success, file)` per unused file — an exception is caught and recorded as
`false` — then re-evaluates `get_unused_files` and bulk-updates
`available=False` (disk removal does not change any table, so this is the
same set as the snapshot). -/
def delete_unused_files (s : Store) (disk : Nat → RemoveOutcome) :
    List (Bool × LocalFileR) × Store :=
  let results := (get_unused_files s).map (fun f =>
    (disk f.id == RemoveOutcome.ok, f))
  let unusedIds := (get_unused_files s).map (fun f => f.id)
  (results,
    { s with
      localfiles := s.localfiles.map (fun lf =>
        if unusedIds.contains lf.id then { lf with available := false }
        else lf) })

/- ===== Request ledger (ContentRequest) ===== -/

/-- `ContentRequestType` (models.py lines 394-396). -/
inductive CRType where
  | Download
  | Removal
  deriving DecidableEq

/-- `ContentRequestReason` (models.py lines 399-401). -/
inductive CRReason where
  | UserInitiated
  | SyncInitiated
  deriving DecidableEq

/-- `ContentRequestStatus` (models.py lines 404-408). -/
inductive CRStatus where
  | Pending
  | InProgress
  | Failed
  | Completed
  deriving DecidableEq

/-- A FacilityUser as far as the ledger is concerned. -/
structure FacilityUserR where
  id : Nat
  facility_id : Nat
  deriving DecidableEq

/-- A ContentRequest row.  `type` is `Option CRType` because
`getattr(cls.objects, "request_type", None)` yields `None` on the base
manager; `contentnode_id` is `Option Nat` because the factory may leave it
unset. -/
structure ContentRequestR where
  facility_id : Nat
  source_model : String
  source_id : Nat
  type : Option CRType
  reason : CRReason
  status : CRStatus
  contentnode_id : Option Nat
  deriving DecidableEq

/-- `ContentRequest.build_for_user` (models.py lines 453-467).
`request_type` is `getattr(cls.objects, "request_type", None)` of the class
the factory is invoked on.  No field names a content node. -/
def build_for_user (request_type : Option CRType) (user : FacilityUserR) :
    ContentRequestR :=
  { facility_id := user.facility_id
    source_model := "facilityuser"
    source_id := user.id
    type := request_type
    reason := CRReason.UserInitiated
    status := CRStatus.Pending
    contentnode_id := none }

/-- The uniqueness key of `ContentRequest.Meta.unique_together`
(models.py line 443): `(type, source_model, source_id, contentnode_id)`. -/
def sameRequestKey (a b : ContentRequestR) : Bool :=
  a.type == b.type && a.source_model == b.source_model &&
    a.source_id == b.source_id && a.contentnode_id == b.contentnode_id

/-- Modelled from the spec: the relational store enforces the
`unique_together` constraint declared in `ContentRequest.Meta`; creating a
row whose key tuple is already present is rejected (the enforcement itself
happens in the database layer, not under src). -/
def insertRequest (ledger : List ContentRequestR) (r : ContentRequestR) :
    Except Unit (List ContentRequestR) :=
  if ledger.any (fun row => sameRequestKey row r) then Except.error ()
  else Except.ok (ledger ++ [r])

/-- Number of ledger rows sharing the key tuple of `r`. -/
def countRequestKey (ledger : List ContentRequestR) (r : ContentRequestR) :
    Nat :=
  (ledger.filter (fun row => sameRequestKey row r)).length

/- ===== Concrete instances used by the claims' examples ===== -/

/-- A topic root of tree 1 spanning `[1, 4]`. -/
def c1root : CNode := ⟨1, 1, 1, 4, 0, "topic", 100, true⟩
/-- A video child of `c1root` inside tree 1. -/
def c1child : CNode := ⟨2, 1, 2, 3, 1, "video", 10, true⟩
/-- A video root of a different tree whose `lft` falls inside `[1, 4]`. -/
def c1other : CNode := ⟨3, 2, 1, 2, 0, "video", 99, true⟩
/-- A two-tree ContentNode table. -/
def c1db : List CNode := [c1root, c1child, c1other]

/-- Two rows sharing `content_id = 5`; the earlier row has the larger id. -/
def c2rowA : CNode := ⟨2, 0, 0, 0, 0, "video", 5, true⟩
/-- The later row of the pair, with the smaller id. -/
def c2rowB : CNode := ⟨1, 0, 0, 0, 0, "video", 5, true⟩
/-- The queryset of the dedup counterexample. -/
def c2rows : List CNode := [c2rowA, c2rowB]

/-- The claims' example registry: A→(F1, bit 1), B→(F1, bit 2),
C→(F2, bit 1). -/
def c3reg : LabelRegistry := [⟨"A", "F1", 1⟩, ⟨"B", "F1", 2⟩, ⟨"C", "F2", 1⟩]
/-- A node with `F1 = 1, F2 = 1`. -/
def c3node1 : String → Nat :=
  fun f => if f = "F1" then 1 else if f = "F2" then 1 else 0
/-- A node with `F1 = 3, F2 = 0`. -/
def c3node2 : String → Nat := fun f => if f = "F1" then 3 else 0

/-- A root with three leaf children. -/
def c4data : TreeData := .node [.node [], .node [], .node []]

/-- The existing root `(1, 8)` of tree 7. -/
def c5root : MPTTNode := ⟨7, 0, 1, 8⟩
/-- Its existing child `(2, 3)`. -/
def c5child : MPTTNode := ⟨7, 1, 2, 3⟩
/-- A single new leaf to insert. -/
def c5leaf : TreeData := .node []

/-- An available node and an unavailable node. -/
def c7nodeAvail : CNode := ⟨1, 1, 1, 2, 0, "video", 1, true⟩
/-- The unavailable node of the pair. -/
def c7nodeUnavail : CNode := ⟨2, 1, 3, 4, 0, "video", 2, false⟩
/-- File X: available, referenced by one available and one unavailable
node. -/
def c7fileX : LocalFileR := ⟨10, true⟩
/-- File Y: available, referenced by nothing. -/
def c7fileY : LocalFileR := ⟨11, true⟩
/-- A store where X is referenced twice and Y is a pure orphan. -/
def c7store : Store :=
  { localfiles := [c7fileX, c7fileY]
    files := [⟨1, 10, 1⟩, ⟨2, 10, 2⟩]
    nodes := [c7nodeAvail, c7nodeUnavail] }

/-- A disk where removing file 11 fails with an I/O error. -/
def c8disk : Nat → RemoveOutcome :=
  fun n => if n = 11 then RemoveOutcome.ioError else RemoveOutcome.ok

/-- A concrete Download request. -/
def c9req : ContentRequestR :=
  ⟨3, "facilityuser", 5, some CRType.Download, CRReason.UserInitiated,
    CRStatus.Pending, some 42⟩

/- ===== Helper lemmas: the treeify traversal ===== -/

mutual
/-- The cursor leaves a subtree having been incremented once on entering and
once on leaving each of its nodes. -/
theorem treeify_final_cursor (tid : Nat) (t : TreeData) (cursor level : Nat) :
    (treeify tid t cursor level).2 + 1 = cursor + 2 * sizeTD t := by
  match t with
  | .node cs =>
    have h := treeifyChildren_final_cursor tid cs cursor level
    simp only [treeify, sizeTD]
    omega

/-- Cursor bookkeeping for a child list. -/
theorem treeifyChildren_final_cursor (tid : Nat) (cs : List TreeData)
    (cursor level : Nat) :
    (treeifyChildren tid cs cursor level).2 = cursor + 2 * sizeListTD cs := by
  match cs with
  | [] => simp [treeifyChildren, sizeListTD]
  | c :: rest =>
    have h1 := treeify_final_cursor tid c (cursor + 1) (level + 1)
    have h2 := treeifyChildren_final_cursor tid rest
      (treeify tid c (cursor + 1) (level + 1)).2 level
    simp only [treeifyChildren, sizeListTD]
    omega
end

mutual
/-- The stack holds one entry per node of the nested input. -/
theorem treeify_length (tid : Nat) (t : TreeData) (cursor level : Nat) :
    (treeify tid t cursor level).1.length = sizeTD t := by
  match t with
  | .node cs =>
    have h := treeifyChildren_length tid cs cursor level
    simp only [treeify, sizeTD, List.length_cons]
    omega

/-- Stack size for a child list. -/
theorem treeifyChildren_length (tid : Nat) (cs : List TreeData)
    (cursor level : Nat) :
    (treeifyChildren tid cs cursor level).1.length = sizeListTD cs := by
  match cs with
  | [] => simp [treeifyChildren, sizeListTD]
  | c :: rest =>
    have h1 := treeify_length tid c (cursor + 1) (level + 1)
    have h2 := treeifyChildren_length tid rest
      (treeify tid c (cursor + 1) (level + 1)).2 level
    simp only [treeifyChildren, sizeListTD, List.length_append]
    omega
end

mutual
/-- Every node of the stack is assigned the requested `tree_id`. -/
theorem treeify_tid (tid : Nat) (t : TreeData) (cursor level : Nat) :
    ((treeify tid t cursor level).1.all (fun n => n.tree_id == tid)) = true := by
  match t with
  | .node cs =>
    have h := treeifyChildren_tid tid cs cursor level
    simp only [treeify, List.all_cons, h, Bool.and_true]
    simp

/-- `tree_id` assignment over a child list. -/
theorem treeifyChildren_tid (tid : Nat) (cs : List TreeData)
    (cursor level : Nat) :
    ((treeifyChildren tid cs cursor level).1.all
      (fun n => n.tree_id == tid)) = true := by
  match cs with
  | [] => simp [treeifyChildren]
  | c :: rest =>
    have h1 := treeify_tid tid c (cursor + 1) (level + 1)
    have h2 := treeifyChildren_tid tid rest
      (treeify tid c (cursor + 1) (level + 1)).2 level
    simp only [treeifyChildren, List.all_append, h1, h2, Bool.and_true]
end

/- ===== Claim theorems ===== -/

/-- C1: the claim fails on the code and the code contradicts its own
docstring: `get_descendant_content_ids` never restricts to the node's
`tree_id`, so the content_id of a non-descendant node of a different tree
whose `lft` falls inside `[node.lft, node.rght]` appears in the result,
while the spec's tree-restricted query excludes it. -/
theorem C1_cross_tree_node_in_result :
    c1other.tree_id ≠ c1root.tree_id ∧
    c1other.content_id ∈ get_descendant_content_ids c1db c1root ∧
    c1other.content_id ∉ spec_descendant_content_ids c1db c1root := by
  decide

/-- C10: when `use_distinct` is true and the connection vendor is neither
sqlite nor postgresql, no branch of `dedupe_by_content_id` is taken and the
call produces no result set at all. -/
theorem C10_dedupe_none_on_unknown_vendor (vendor : String)
    (allRows qs : List CNode) (h1 : vendor ≠ "sqlite")
    (h2 : vendor ≠ "postgresql") :
    dedupe_by_content_id vendor true allRows qs = none := by
  simp [dedupe_by_content_id, h1, h2]

/-- C10 witness: on a mysql backend the operation returns no queryset. -/
theorem C10_dedupe_none_on_unknown_vendor_witness :
    dedupe_by_content_id "mysql" true c2rows c2rows = none :=
  C10_dedupe_none_on_unknown_vendor "mysql" c2rows c2rows (by decide)
    (by decide)

/-- C6 counterexample: the factory takes no content node and the request it
builds for a concrete user records no `contentnode_id` at all, so it does
not target any given content node. -/
theorem C6_counterexample_no_target_node :
    (build_for_user (some CRType.Download) ⟨5, 7⟩).contentnode_id = none ∧
    (build_for_user (some CRType.Download) ⟨5, 7⟩).contentnode_id ≠ some 42 := by
  decide

/-- C6 (amended): `build_for_user(user)` constructs a request whose status
is Pending, whose reason is UserInitiated, whose facility is the user's
facility and whose source_model/source_id identify the user as originator,
with the type fixed by the invoking manager; it references no content
node. -/
theorem C6_build_for_user_fields (rt : Option CRType)
    (user : FacilityUserR) :
    (build_for_user rt user).status = CRStatus.Pending ∧
    (build_for_user rt user).reason = CRReason.UserInitiated ∧
    (build_for_user rt user).facility_id = user.facility_id ∧
    (build_for_user rt user).source_model = "facilityuser" ∧
    (build_for_user rt user).source_id = user.id ∧
    (build_for_user rt user).type = rt ∧
    (build_for_user rt user).contentnode_id = none :=
  ⟨rfl, rfl, rfl, rfl, rfl, rfl, rfl⟩

/-- The uniqueness key relation is reflexive. -/
theorem sameRequestKey_refl (r : ContentRequestR) :
    sameRequestKey r r = true := by
  simp [sameRequestKey]

/-- C9: under the `unique_together` constraint, once a request with a given
`(type, source_model, source_id, contentnode_id)` tuple is stored, a second
creation with the same tuple is rejected, and exactly one row with that
tuple is stored. -/
theorem C9_request_creation_idempotent (ledger l1 : List ContentRequestR)
    (r r2 : ContentRequestR) (hkey : sameRequestKey r r2 = true)
    (h0 : countRequestKey ledger r = 0)
    (hins : insertRequest ledger r = Except.ok l1) :
    countRequestKey l1 r = 1 ∧ insertRequest l1 r2 = Except.error () := by
  have hfil : ledger.filter (fun row => sameRequestKey row r) = [] :=
    List.length_eq_zero.mp h0
  have hany : ledger.any (fun row => sameRequestKey row r) = false := by
    rw [List.any_eq_false]
    intro row hrow
    have hnotin : row ∉ ledger.filter (fun row => sameRequestKey row r) := by
      simp [hfil]
    simpa [List.mem_filter, hrow] using hnotin
  have hl1 : ledger ++ [r] = l1 := by
    simpa [insertRequest, hany] using hins
  subst hl1
  constructor
  · simp [countRequestKey, List.filter_append, hfil, sameRequestKey_refl]
  · simp [insertRequest, List.any_append, hkey]

/-- C9 witness: a concrete duplicate Download request is rejected and the
ledger keeps one row. -/
theorem C9_request_creation_idempotent_witness :
    countRequestKey [c9req] c9req = 1 ∧
      insertRequest [c9req] c9req = Except.error () :=
  C9_request_creation_idempotent [] [c9req] c9req c9req (by decide)
    (by decide) rfl

/-- C4: without a target, `build_tree_nodes` assigns `tree_id`, `level`,
`lft`, `rght` by one preorder traversal whose cursor starts at 1 and is
incremented once on entering and once on leaving each node: a root with
three leaf children yields root `(1, 8)` at level 0 and children `(2, 3)`,
`(4, 5)`, `(6, 7)` at level 1 in order; in general the stack holds one node
per input element, all carrying the requested tree id, and the final cursor
equals the entry cursor plus twice the subtree size minus one. -/
theorem C4_build_tree_preorder_assignment :
    (build_tree_nodes [] 1 c4data none "last-child").2 =
      [⟨1, 0, 1, 8⟩, ⟨1, 1, 2, 3⟩, ⟨1, 1, 4, 5⟩, ⟨1, 1, 6, 7⟩] ∧
    (∀ tid t cursor level,
      (treeify tid t cursor level).2 + 1 = cursor + 2 * sizeTD t) ∧
    (∀ tid t cursor level,
      (treeify tid t cursor level).1.length = sizeTD t) ∧
    (∀ tid t cursor level,
      ((treeify tid t cursor level).1.all (fun n => n.tree_id == tid)) =
        true) :=
  ⟨by decide, treeify_final_cursor, treeify_length, treeify_tid⟩

/-- Inserting under a target shifts every existing node of the target's tree
whose `lft`/`rght` is at or beyond the insertion cursor right by twice the
number of inserted nodes, and leaves every other coordinate unchanged. -/
theorem build_with_target_shifts (existing : List MPTTNode) (data : TreeData)
    (t : MPTTNode) (pos : String)
    (hcur : 1 ≤ (insertionCursorLevel t pos).1) :
    (build_tree_nodes existing 0 data (some t) pos).1 =
      existing.map (fun n =>
        if n.tree_id = t.tree_id then
          { n with
            lft := if (insertionCursorLevel t pos).1 ≤ n.lft then
                n.lft + 2 * sizeTD data
              else n.lft
            rght := if (insertionCursorLevel t pos).1 ≤ n.rght then
                n.rght + 2 * sizeTD data
              else n.rght }
        else n) := by
  simp only [build_tree_nodes, create_space]
  refine List.map_congr_left fun n hn => ?_
  by_cases ht : n.tree_id = t.tree_id
  · rw [if_pos ht, if_pos ht,
      treeify_length t.tree_id data (insertionCursorLevel t pos).1
        (insertionCursorLevel t pos).2]
    have e1 : (if (insertionCursorLevel t pos).1 - 1 < n.lft then
        n.lft + 2 * sizeTD data else n.lft) =
        (if (insertionCursorLevel t pos).1 ≤ n.lft then
        n.lft + 2 * sizeTD data else n.lft) := by
      by_cases h : (insertionCursorLevel t pos).1 ≤ n.lft
      · rw [if_pos (by omega), if_pos h]
      · rw [if_neg (by omega), if_neg h]
    have e2 : (if (insertionCursorLevel t pos).1 - 1 < n.rght then
        n.rght + 2 * sizeTD data else n.rght) =
        (if (insertionCursorLevel t pos).1 ≤ n.rght then
        n.rght + 2 * sizeTD data else n.rght) := by
      by_cases h : (insertionCursorLevel t pos).1 ≤ n.rght
      · rw [if_pos (by omega), if_pos h]
      · rw [if_neg (by omega), if_neg h]
    rw [e1, e2]
  · rw [if_neg ht, if_neg ht]

/-- The inserted stack has one node per element of the nested input. -/
theorem build_with_target_stack_length (existing : List MPTTNode)
    (data : TreeData) (t : MPTTNode) (pos : String) :
    (build_tree_nodes existing 0 data (some t) pos).2.length = sizeTD data := by
  simp only [build_tree_nodes]
  exact treeify_length _ _ _ _

/-- C5: with a target, every existing node of the target's tree whose `lft`
or `rght` is at or beyond the insertion cursor is shifted right by
`2 × (number of nodes being inserted)`, others stay put; and starting from a
root `(1, 8)` with one child `(2, 3)`, inserting two new leaves as
first-child of the root (one call per leaf) shifts the existing child to
`(6, 7)`, places the new leaves at `(4, 5)` and `(2, 3)`, and grows the root
to `(1, 12)`. -/
theorem C5_space_making (existing : List MPTTNode) (data : TreeData)
    (t : MPTTNode) (pos : String)
    (hcur : 1 ≤ (insertionCursorLevel t pos).1) :
    ((build_tree_nodes existing 0 data (some t) pos).1 =
      existing.map (fun n =>
        if n.tree_id = t.tree_id then
          { n with
            lft := if (insertionCursorLevel t pos).1 ≤ n.lft then
                n.lft + 2 * sizeTD data
              else n.lft
            rght := if (insertionCursorLevel t pos).1 ≤ n.rght then
                n.rght + 2 * sizeTD data
              else n.rght }
        else n) ∧
      (build_tree_nodes existing 0 data (some t) pos).2.length =
        sizeTD data) ∧
    ((build_tree_nodes [c5root, c5child] 0 c5leaf (some c5root)
          "first-child").1 ++
        (build_tree_nodes [c5root, c5child] 0 c5leaf (some c5root)
          "first-child").2 =
        [⟨7, 0, 1, 10⟩, ⟨7, 1, 4, 5⟩, ⟨7, 1, 2, 3⟩] ∧
      (build_tree_nodes [⟨7, 0, 1, 10⟩, ⟨7, 1, 4, 5⟩, ⟨7, 1, 2, 3⟩] 0 c5leaf
          (some ⟨7, 0, 1, 10⟩) "first-child").1 ++
        (build_tree_nodes [⟨7, 0, 1, 10⟩, ⟨7, 1, 4, 5⟩, ⟨7, 1, 2, 3⟩] 0
          c5leaf (some ⟨7, 0, 1, 10⟩) "first-child").2 =
        [⟨7, 0, 1, 12⟩, ⟨7, 1, 6, 7⟩, ⟨7, 1, 4, 5⟩, ⟨7, 1, 2, 3⟩]) :=
  ⟨⟨build_with_target_shifts existing data t pos hcur,
      build_with_target_stack_length existing data t pos⟩,
    by decide, by decide⟩

/-- C5 witness: the space-making characterisation instantiated on the
claim's concrete tree. -/
theorem C5_space_making_witness :
    (build_tree_nodes [c5root, c5child] 0 c5leaf (some c5root)
        "first-child").1 ++
      (build_tree_nodes [c5root, c5child] 0 c5leaf (some c5root)
        "first-child").2 =
      [⟨7, 0, 1, 10⟩, ⟨7, 1, 4, 5⟩, ⟨7, 1, 2, 3⟩] ∧
    (build_tree_nodes [⟨7, 0, 1, 10⟩, ⟨7, 1, 4, 5⟩, ⟨7, 1, 2, 3⟩] 0 c5leaf
        (some ⟨7, 0, 1, 10⟩) "first-child").1 ++
      (build_tree_nodes [⟨7, 0, 1, 10⟩, ⟨7, 1, 4, 5⟩, ⟨7, 1, 2, 3⟩] 0 c5leaf
        (some ⟨7, 0, 1, 10⟩) "first-child").2 =
      [⟨7, 0, 1, 12⟩, ⟨7, 1, 6, 7⟩, ⟨7, 1, 4, 5⟩, ⟨7, 1, 2, 3⟩] :=
  (C5_space_making [c5root, c5child] c5leaf c5root "first-child"
    (by decide)).2

/-- No referencing File row joins to an available node iff every referencing
File row joins only to unavailable nodes. -/
theorem hasRefAvail_eq_false_iff (s : Store) (lfid : Nat) :
    hasRefWithNodeAvail s lfid true = false ↔
      ∀ f ∈ refsOf s lfid, ∀ n ∈ s.nodes,
        n.id = f.contentnode → n.available = false := by
  simp only [hasRefWithNodeAvail, List.any_eq_false, List.any_eq_true,
    Bool.and_eq_true, beq_iff_eq, not_exists, not_and]
  constructor
  · intro h f hf n hn hid
    have := h f hf n hn hid
    simpa using this
  · intro h f hf n hn hid hav
    have := h f hf n hn hid
    simp [this] at hav

/-- C7: a LocalFile is returned by `get_unused_files` iff it is available
and either every File row referencing it points to an unavailable
ContentNode, or no File row references it at all; so a file referenced by an
available node never qualifies even with a second unavailable referent, and
a file with zero references qualifies. -/
theorem C7_unused_files_characterisation (s : Store) (lf : LocalFileR)
    (hint : StoreIntegrity s) :
    lf ∈ get_unused_files s ↔ lf ∈ s.localfiles ∧ spec_unused s lf := by
  constructor
  · intro h
    rw [get_unused_files] at h
    simp only [List.mem_filter] at h
    obtain ⟨⟨⟨hmem, h1⟩, h2⟩, h3⟩ := h
    have h2' : hasRefWithNodeAvail s lf.id true = false := by
      simpa using h2
    exact ⟨hmem, h3, Or.inl ((hasRefAvail_eq_false_iff s lf.id).mp h2')⟩
  · rintro ⟨hmem, hav, hdisj⟩
    rw [get_unused_files]
    simp only [List.mem_filter]
    rcases hdisj with hall | hempty
    · rcases hre : refsOf s lf.id with _ | ⟨f0, rest⟩
      · refine ⟨⟨⟨hmem, ?_⟩, ?_⟩, hav⟩
        · simp [hre]
        · simp [hasRefWithNodeAvail, hre]
      · have hf0 : f0 ∈ refsOf s lf.id := by
          rw [hre]; exact List.mem_cons_self _ _
        have hf0files : f0 ∈ s.files := (List.mem_filter.mp hf0).1
        obtain ⟨n0, hn0, hid0⟩ := hint f0 hf0files
        have hunav : n0.available = false := hall f0 hf0 n0 hn0 hid0
        refine ⟨⟨⟨hmem, ?_⟩, ?_⟩, hav⟩
        · have : hasRefWithNodeAvail s lf.id false = true := by
            simp only [hasRefWithNodeAvail, List.any_eq_true,
              Bool.and_eq_true, beq_iff_eq]
            exact ⟨f0, hf0, n0, hn0, hid0, by simp [hunav]⟩
          simp [this]
        · simp only [Bool.not_eq_true']
          exact (hasRefAvail_eq_false_iff s lf.id).mpr hall
    · refine ⟨⟨⟨hmem, ?_⟩, ?_⟩, hav⟩
      · simp [hempty]
      · simp only [Bool.not_eq_true']
        refine (hasRefAvail_eq_false_iff s lf.id).mpr ?_
        intro f hf
        rw [hempty] at hf
        cases hf

/-- C7 witness: the characterisation instantiated on the concrete store
where file X has an available and an unavailable referent and file Y is a
pure orphan. -/
theorem C7_unused_files_characterisation_witness :
    c7fileY ∈ get_unused_files c7store ↔
      c7fileY ∈ c7store.localfiles ∧ spec_unused c7store c7fileY :=
  C7_unused_files_characterisation c7store c7fileY (by decide)

/-- `List.contains` on naturals agrees with membership. -/
theorem contains_iff_mem_nat (l : List Nat) (a : Nat) :
    l.contains a = true ↔ a ∈ l := by
  simp [List.contains_eq_any_beq]

/-- C8: consuming `delete_unused_files` fully yields one `(success, file)`
pair per file unused at snapshot time, in order — a failed removal (I/O
error or invalid derived filename) yields `(false, file)` and never aborts
the batch, a successful one yields `(true, file)` — and afterwards every
snapshot-unused file has `available = false` in the store while all other
rows and tables are untouched. -/
theorem C8_delete_unused_files_batch (s : Store) (disk : Nat → RemoveOutcome) :
    ((delete_unused_files s disk).1.map Prod.snd = get_unused_files s) ∧
    (∀ p ∈ (delete_unused_files s disk).1,
      (p.1 = true ↔ disk p.2.id = RemoveOutcome.ok) ∧
      (p.1 = false ↔ disk p.2.id = RemoveOutcome.ioError ∨
        disk p.2.id = RemoveOutcome.invalidName)) ∧
    (delete_unused_files s disk).2.files = s.files ∧
    (delete_unused_files s disk).2.nodes = s.nodes ∧
    (delete_unused_files s disk).2.localfiles.length = s.localfiles.length ∧
    (∀ lf ∈ (delete_unused_files s disk).2.localfiles,
      lf.id ∈ (get_unused_files s).map (fun f => f.id) →
        lf.available = false) ∧
    (∀ lf ∈ s.localfiles,
      lf.id ∉ (get_unused_files s).map (fun f => f.id) →
        lf ∈ (delete_unused_files s disk).2.localfiles) := by
  refine ⟨?_, ?_, rfl, rfl, ?_, ?_, ?_⟩
  · rw [delete_unused_files, List.map_map,
      show (Prod.snd ∘ fun f : LocalFileR =>
        (disk f.id == RemoveOutcome.ok, f)) = id from rfl, List.map_id]
  · intro p hp
    simp only [delete_unused_files, List.mem_map] at hp
    obtain ⟨f, hf, rfl⟩ := hp
    constructor
    · cases h : disk f.id <;> simp [h]
    · cases h : disk f.id <;> simp [h]
  · simp [delete_unused_files]
  · intro lf hlf hid
    simp only [delete_unused_files, List.mem_map] at hlf
    obtain ⟨lf0, hlf0, rfl⟩ := hlf
    by_cases hc : lf0.id ∈ (get_unused_files s).map (fun f => f.id)
    · rw [if_pos ((contains_iff_mem_nat _ _).mpr hc)]
    · have hneg := fun hcon => hc ((contains_iff_mem_nat _ _).mp hcon)
      rw [if_neg hneg] at hid ⊢
      exact absurd hid hc
  · intro lf hlf hid
    simp only [delete_unused_files, List.mem_map]
    refine ⟨lf, hlf, ?_⟩
    rw [if_neg (fun hcon => hid ((contains_iff_mem_nat _ _).mp hcon))]

/-- C8 witness: the per-item outcomes instantiated on the concrete store
where the orphan file's disk removal fails with an I/O error. -/
theorem C8_delete_unused_files_batch_witness :
    ∀ p ∈ (delete_unused_files c7store c8disk).1,
      (p.1 = true ↔ c8disk p.2.id = RemoveOutcome.ok) ∧
      (p.1 = false ↔ c8disk p.2.id = RemoveOutcome.ioError ∨
        c8disk p.2.id = RemoveOutcome.invalidName) :=
  (C8_delete_unused_files_batch c7store c8disk).2.1

/- ===== Helper lemmas: minimum, grouping and distinct scans ===== -/

/-- A left fold with binary minimum stays below its seed. -/
theorem foldl_min_le_init (xs : List Nat) (a : Nat) :
    xs.foldl (fun a b => if a ≤ b then a else b) a ≤ a := by
  induction xs generalizing a with
  | nil => simp
  | cons x xs ih =>
    simp only [List.foldl_cons]
    refine le_trans (ih _) ?_
    split <;> omega

/-- A left fold with binary minimum is below every list element. -/
theorem foldl_min_le (xs : List Nat) (a : Nat) :
    ∀ y ∈ xs, xs.foldl (fun a b => if a ≤ b then a else b) a ≤ y := by
  induction xs generalizing a with
  | nil => simp
  | cons x xs ih =>
    intro y hy
    rcases List.mem_cons.mp hy with h | h
    · subst h
      simp only [List.foldl_cons]
      refine le_trans (foldl_min_le_init xs _) ?_
      split <;> omega
    · simpa using ih _ y h

/-- A left fold with binary minimum produces its seed or a list element. -/
theorem foldl_min_mem (xs : List Nat) (a : Nat) :
    xs.foldl (fun a b => if a ≤ b then a else b) a = a ∨
      xs.foldl (fun a b => if a ≤ b then a else b) a ∈ xs := by
  induction xs generalizing a with
  | nil => simp
  | cons x xs ih =>
    simp only [List.foldl_cons]
    rcases ih (if a ≤ x then a else x) with h | h
    · rw [h]
      split
      · left; rfl
      · right; exact List.mem_cons_self _ _
    · right
      exact List.mem_cons_of_mem x h

/-- The minimum of a nonempty list is one of its elements. -/
theorem listMin_mem (x : Nat) (xs : List Nat) :
    listMin (x :: xs) ∈ x :: xs := by
  rcases foldl_min_mem xs x with h | h
  · simp [listMin, h]
  · simp [listMin, List.mem_cons_of_mem x h]

/-- The minimum of a nonempty list is below every element. -/
theorem listMin_le (x : Nat) (xs : List Nat) :
    ∀ y ∈ x :: xs, listMin (x :: xs) ≤ y := by
  intro y hy
  rcases List.mem_cons.mp hy with h | h
  · subst h
    simpa [listMin] using foldl_min_le_init xs y
  · simpa [listMin] using foldl_min_le xs x y h

/-- Every value of `groupMinIds` is the id of a row of the queryset and the
minimum id of that row's `content_id` group. -/
theorem groupMinIds_spec (qs : List CNode) (m : Nat)
    (hm : m ∈ groupMinIds qs) :
    ∃ row ∈ qs, row.id = m ∧
      ∀ other ∈ qs, other.content_id = row.content_id → m ≤ other.id := by
  simp only [groupMinIds, List.mem_map] at hm
  obtain ⟨c, hc, hmc⟩ := hm
  have hcmem : c ∈ qs.map (fun n => n.content_id) := List.mem_dedup.mp hc
  obtain ⟨row0, hrow0, hrow0c⟩ := List.mem_map.mp hcmem
  have hrow0grp : row0 ∈ qs.filter (fun n => n.content_id == c) :=
    List.mem_filter.mpr ⟨hrow0, by simp [hrow0c]⟩
  rcases hgrp : (qs.filter (fun n => n.content_id == c)).map (fun n => n.id)
      with _ | ⟨y, ys⟩
  · exfalso
    have : row0.id ∈ (qs.filter (fun n => n.content_id == c)).map
        (fun n => n.id) := List.mem_map_of_mem _ hrow0grp
    rw [hgrp] at this
    cases this
  · rw [hgrp] at hmc
    have hmmem : m ∈ y :: ys := hmc ▸ listMin_mem y ys
    rw [← hgrp] at hmmem
    obtain ⟨row, hrowgrp, hrowid⟩ := List.mem_map.mp hmmem
    have hrowq : row ∈ qs := (List.mem_filter.mp hrowgrp).1
    have hrowc : row.content_id = c := by
      have := (List.mem_filter.mp hrowgrp).2
      simpa using this
    refine ⟨row, hrowq, hrowid, ?_⟩
    intro other hother hoc
    have hothergrp : other ∈ qs.filter (fun n => n.content_id == c) :=
      List.mem_filter.mpr ⟨hother, by simp [hoc, hrowc]⟩
    have : other.id ∈ y :: ys := by
      rw [← hgrp]
      exact List.mem_map_of_mem _ hothergrp
    exact hmc ▸ listMin_le y ys other.id this

/-- Every row's `content_id` group contributes its minimum-id row to
`groupMinIds`. -/
theorem groupMinIds_covers (qs : List CNode) (row : CNode) (h : row ∈ qs) :
    ∃ r ∈ qs, r.id ∈ groupMinIds qs ∧ r.content_id = row.content_id := by
  have hcmem : row.content_id ∈ qs.map (fun n => n.content_id) :=
    List.mem_map_of_mem _ h
  have hcded : row.content_id ∈ (qs.map (fun n => n.content_id)).dedup :=
    List.mem_dedup.mpr hcmem
  have hgrpmem : row ∈ qs.filter (fun n => n.content_id == row.content_id) :=
    List.mem_filter.mpr ⟨h, by simp⟩
  rcases hgrp : (qs.filter (fun n => n.content_id == row.content_id)).map
      (fun n => n.id) with _ | ⟨y, ys⟩
  · exfalso
    have : row.id ∈ (qs.filter (fun n => n.content_id == row.content_id)).map
        (fun n => n.id) := List.mem_map_of_mem _ hgrpmem
    rw [hgrp] at this
    cases this
  · have hminmem : listMin (y :: ys) ∈ y :: ys := listMin_mem y ys
    rw [← hgrp] at hminmem
    obtain ⟨r, hrgrp, hrid⟩ := List.mem_map.mp hminmem
    refine ⟨r, (List.mem_filter.mp hrgrp).1, ?_, ?_⟩
    · simp only [groupMinIds, List.mem_map]
      exact ⟨row.content_id, hcded, hrid.symm⟩
    · have := (List.mem_filter.mp hrgrp).2
      simpa using this

/-- The distinct scan only returns rows of its input. -/
theorem distinctOnAux_subset (seen : List Nat) (l : List CNode) :
    ∀ x ∈ distinctOnAux seen l, x ∈ l := by
  induction l generalizing seen with
  | nil => simp [distinctOnAux]
  | cons y ys ih =>
    intro x hx
    simp only [distinctOnAux] at hx
    by_cases hc : seen.contains y.content_id
    · rw [if_pos hc] at hx
      exact List.mem_cons_of_mem y (ih seen x hx)
    · rw [if_neg hc] at hx
      rcases List.mem_cons.mp hx with h | h
      · exact h ▸ List.mem_cons_self y ys
      · exact List.mem_cons_of_mem y (ih _ x h)

/-- A content_id appears in the distinct scan's output iff it appears in the
input and was not already seen. -/
theorem distinctOnAux_content_mem (seen : List Nat) (l : List CNode)
    (c : Nat) :
    c ∈ (distinctOnAux seen l).map (fun n => n.content_id) ↔
      c ∈ l.map (fun n => n.content_id) ∧ c ∉ seen := by
  induction l generalizing seen with
  | nil => simp [distinctOnAux]
  | cons y ys ih =>
    simp only [distinctOnAux]
    by_cases hc : seen.contains y.content_id
    · rw [if_pos hc]
      rw [ih seen]
      simp only [List.map_cons, List.mem_cons]
      constructor
      · rintro ⟨h1, h2⟩
        exact ⟨Or.inr h1, h2⟩
      · rintro ⟨h1 | h1, h2⟩
        · exfalso
          subst h1
          exact h2 ((contains_iff_mem_nat _ _).mp hc)
        · exact ⟨h1, h2⟩
    · rw [if_neg hc]
      simp only [List.map_cons, List.mem_cons]
      rw [ih (y.content_id :: seen)]
      constructor
      · rintro (h | ⟨h1, h2⟩)
        · subst h
          refine ⟨Or.inl rfl, fun hs => hc ((contains_iff_mem_nat _ _).mpr hs)⟩
        · exact ⟨Or.inr h1, fun hs => h2 (List.mem_cons_of_mem _ hs)⟩
      · rintro ⟨h1 | h1, h2⟩
        · exact Or.inl h1
        · by_cases hyc : c = y.content_id
          · exact Or.inl hyc
          · exact Or.inr ⟨h1, fun hs => by
              rcases List.mem_cons.mp hs with h | h
              · exact hyc h
              · exact h2 h⟩

/-- The distinct scan emits each content_id at most once. -/
theorem distinctOnAux_nodup (seen : List Nat) (l : List CNode) :
    ((distinctOnAux seen l).map (fun n => n.content_id)).Nodup := by
  induction l generalizing seen with
  | nil => simp [distinctOnAux]
  | cons y ys ih =>
    simp only [distinctOnAux]
    by_cases hc : seen.contains y.content_id
    · rw [if_pos hc]
      exact ih seen
    · rw [if_neg hc]
      simp only [List.map_cons, List.nodup_cons]
      refine ⟨fun hmem => ?_, ih (y.content_id :: seen)⟩
      have := (distinctOnAux_content_mem (y.content_id :: seen) ys
        y.content_id).mp hmem
      exact this.2 (List.mem_cons_self _ _)

/-- Stable insertion permutes the extended list. -/
theorem insertByContentId_perm (x : CNode) (l : List CNode) :
    List.Perm (insertByContentId x l) (x :: l) := by
  induction l with
  | nil => simp [insertByContentId]
  | cons y ys ih =>
    simp only [insertByContentId]
    split
    · exact List.Perm.trans (List.Perm.cons y ih) (List.Perm.swap x y ys)
    · exact List.Perm.refl _

/-- Ordering by content_id permutes the queryset. -/
theorem orderByContentId_perm (l : List CNode) :
    List.Perm (orderByContentId l) l := by
  induction l with
  | nil => simp [orderByContentId]
  | cons y ys ih =>
    exact List.Perm.trans (insertByContentId_perm y (orderByContentId ys))
      (List.Perm.cons y ih)

/-- Membership in the uuid filter. -/
theorem mem_filter_by_uuids (qs : List CNode) (ids : List Nat) (row : CNode) :
    row ∈ filter_by_uuids qs ids ↔ row ∈ qs ∧ row.id ∈ ids := by
  simp [filter_by_uuids, List.mem_filter, contains_iff_mem_nat]

/-- With unique ids, two queryset rows with the same id are the same row. -/
theorem id_inj (qs : List CNode) (h : (qs.map (fun n => n.id)).Nodup) :
    ∀ a ∈ qs, ∀ b ∈ qs, a.id = b.id → a = b :=
  fun _ ha _ hb => List.inj_on_of_nodup_map h ha hb

/-- Every row of the group-by-min dedup has the minimum id of its
`content_id` group. -/
theorem sqlite_result_min (qs : List CNode)
    (h : (qs.map (fun n => n.id)).Nodup) (row : CNode)
    (hrow : row ∈ filter_by_uuids qs (groupMinIds qs)) :
    ∀ other ∈ qs, other.content_id = row.content_id → row.id ≤ other.id := by
  obtain ⟨hq, hid⟩ := (mem_filter_by_uuids qs (groupMinIds qs) row).mp hrow
  obtain ⟨rr, hrr, hrid, hmin⟩ := groupMinIds_spec qs row.id hid
  have heq : rr = row := id_inj qs h rr hrr row hq hrid
  subst heq
  exact hmin

/-- The group-by-min dedup covers exactly the content_ids of the queryset. -/
theorem sqlite_result_cover (qs : List CNode) (c : Nat) :
    c ∈ qs.map (fun n => n.content_id) ↔
      c ∈ (filter_by_uuids qs (groupMinIds qs)).map
        (fun n => n.content_id) := by
  constructor
  · intro hc
    obtain ⟨row, hrow, hrowc⟩ := List.mem_map.mp hc
    obtain ⟨r, hr, hrid, hrc⟩ := groupMinIds_covers qs row hrow
    have : r ∈ filter_by_uuids qs (groupMinIds qs) :=
      (mem_filter_by_uuids qs (groupMinIds qs) r).mpr ⟨hr, hrid⟩
    exact List.mem_map.mpr ⟨r, this, by rw [hrc, hrowc]⟩
  · intro hc
    obtain ⟨row, hrow, hrowc⟩ := List.mem_map.mp hc
    have : row ∈ qs := ((mem_filter_by_uuids qs (groupMinIds qs) row).mp
      hrow).1
    exact List.mem_map.mpr ⟨row, this, hrowc⟩

/-- The group-by-min dedup returns at most one row per content_id. -/
theorem sqlite_result_nodup (qs : List CNode)
    (h : (qs.map (fun n => n.id)).Nodup) :
    ((filter_by_uuids qs (groupMinIds qs)).map
      (fun n => n.content_id)).Nodup := by
  apply List.Nodup.map_on
  · intro a ha b hb hab
    have haq : a ∈ qs := ((mem_filter_by_uuids qs (groupMinIds qs) a).mp ha).1
    have hbq : b ∈ qs := ((mem_filter_by_uuids qs (groupMinIds qs) b).mp hb).1
    have h1 : a.id ≤ b.id :=
      sqlite_result_min qs h a ha b hbq hab.symm
    have h2 : b.id ≤ a.id :=
      sqlite_result_min qs h b hb a haq hab
    exact id_inj qs h a haq b hbq (Nat.le_antisymm h1 h2)
  · exact (List.Nodup.of_map _ h).filter _

/-- C2 counterexample: on two rows sharing a content_id, the group-by-min
strategy keeps the row with the smaller id while the ordered-distinct
strategy keeps the first row in scan order, whose id is larger — the two
strategies disagree and the distinct strategy does not return the minimum
identifier. -/
theorem C2_counterexample_strategies_disagree :
    dedupe_by_content_id "sqlite" true c2rows c2rows = some [c2rowB] ∧
    dedupe_by_content_id "postgresql" true c2rows c2rows = some [c2rowA] ∧
    c2rowA.content_id = c2rowB.content_id ∧
    c2rowB.id < c2rowA.id := by decide

/-- C2 (amended): on any queryset with unique ids, both strategies return
exactly one row per distinct content_id drawn from the queryset; the
group-by-min strategy moreover returns the row with the minimum identifier
of each group, while the ordered-distinct strategy returns some
deterministic representative that need not have the minimum identifier. -/
theorem C2_dedupe_amended (qs : List CNode)
    (hids : (qs.map (fun n => n.id)).Nodup) :
    (dedupe_by_content_id "sqlite" true qs qs =
        some (filter_by_uuids qs (groupMinIds qs)) ∧
      (∀ row ∈ filter_by_uuids qs (groupMinIds qs), row ∈ qs) ∧
      ((filter_by_uuids qs (groupMinIds qs)).map
        (fun n => n.content_id)).Nodup ∧
      (∀ c, c ∈ qs.map (fun n => n.content_id) ↔
        c ∈ (filter_by_uuids qs (groupMinIds qs)).map
          (fun n => n.content_id)) ∧
      (∀ row ∈ filter_by_uuids qs (groupMinIds qs),
        ∀ other ∈ qs, other.content_id = row.content_id →
          row.id ≤ other.id)) ∧
    (dedupe_by_content_id "postgresql" true qs qs =
        some (distinctOnContentId (orderByContentId qs)) ∧
      (∀ row ∈ distinctOnContentId (orderByContentId qs), row ∈ qs) ∧
      ((distinctOnContentId (orderByContentId qs)).map
        (fun n => n.content_id)).Nodup ∧
      (∀ c, c ∈ qs.map (fun n => n.content_id) ↔
        c ∈ (distinctOnContentId (orderByContentId qs)).map
          (fun n => n.content_id))) := by
  refine ⟨⟨rfl, ?_, sqlite_result_nodup qs hids, sqlite_result_cover qs,
      sqlite_result_min qs hids⟩,
    rfl, ?_, distinctOnAux_nodup [] (orderByContentId qs), ?_⟩
  · intro row hrow
    exact ((mem_filter_by_uuids qs (groupMinIds qs) row).mp hrow).1
  · intro row hrow
    have h1 : row ∈ orderByContentId qs :=
      distinctOnAux_subset [] (orderByContentId qs) row hrow
    exact (orderByContentId_perm qs).mem_iff.mp h1
  · intro c
    have h1 := distinctOnAux_content_mem [] (orderByContentId qs) c
    have h2 : c ∈ (orderByContentId qs).map (fun n => n.content_id) ↔
        c ∈ qs.map (fun n => n.content_id) :=
      (List.Perm.map (fun n => n.content_id)
        (orderByContentId_perm qs)).mem_iff
    constructor
    · intro hc
      exact h1.mpr ⟨h2.mpr hc, by simp⟩
    · intro hc
      exact h2.mp (h1.mp hc).1

/-- C2 witness: the amended dedup characterisation instantiated on the
two-row counterexample queryset. -/
theorem C2_dedupe_amended_witness :
    (dedupe_by_content_id "sqlite" true c2rows c2rows =
        some (filter_by_uuids c2rows (groupMinIds c2rows)) ∧
      (∀ row ∈ filter_by_uuids c2rows (groupMinIds c2rows), row ∈ c2rows) ∧
      ((filter_by_uuids c2rows (groupMinIds c2rows)).map
        (fun n => n.content_id)).Nodup ∧
      (∀ c, c ∈ c2rows.map (fun n => n.content_id) ↔
        c ∈ (filter_by_uuids c2rows (groupMinIds c2rows)).map
          (fun n => n.content_id)) ∧
      (∀ row ∈ filter_by_uuids c2rows (groupMinIds c2rows),
        ∀ other ∈ c2rows, other.content_id = row.content_id →
          row.id ≤ other.id)) ∧
    (dedupe_by_content_id "postgresql" true c2rows c2rows =
        some (distinctOnContentId (orderByContentId c2rows)) ∧
      (∀ row ∈ distinctOnContentId (orderByContentId c2rows),
        row ∈ c2rows) ∧
      ((distinctOnContentId (orderByContentId c2rows)).map
        (fun n => n.content_id)).Nodup ∧
      (∀ c, c ∈ c2rows.map (fun n => n.content_id) ↔
        c ∈ (distinctOnContentId (orderByContentId c2rows)).map
          (fun n => n.content_id))) :=
  C2_dedupe_amended c2rows (by decide)

/- ===== Helper lemmas: bit arithmetic and the label accumulator ===== -/

theorem add_eq_lor_of_and_eq_zero (a b : Nat) (h : a &&& b = 0) :
    a + b = a ||| b := by
  induction a using Nat.binaryRec generalizing b with
  | z => simp
  | f ba a' ih =>
    induction b using Nat.bitCasesOn with
    | h bb b' =>
      rw [Nat.land_bit] at h
      have h2 := Nat.bit_eq_zero_iff.mp h
      rw [Nat.lor_bit, Nat.bit_val, Nat.bit_val, Nat.bit_val, ← ih b' h2.1]
      have h3 : (ba && bb) = false := h2.2
      clear ih
      cases ba <;> cases bb <;> simp_all <;> omega

theorem two_pow_land_eq_zero {i j : Nat} (h : i ≠ j) :
    2 ^ i &&& 2 ^ j = 0 := by
  rw [Nat.and_two_pow, Nat.testBit_two_pow_of_ne h]
  simp

theorem land_foldr_lor_eq_zero {a : Nat} {L : List Nat}
    (h : ∀ x ∈ L, a &&& x = 0) :
    a &&& L.foldr (fun b m => b ||| m) 0 = 0 := by
  induction L with
  | nil => simp
  | cons x xs ih =>
    simp only [List.foldr_cons]
    rw [Nat.and_or_distrib_left, h x (List.mem_cons_self _ _),
      ih (fun y hy => h y (List.mem_cons_of_mem _ hy))]
    simp

theorem sum_eq_foldr_lor {L : List Nat}
    (h : L.Pairwise (fun a b => a &&& b = 0)) :
    L.sum = L.foldr (fun b m => b ||| m) 0 := by
  induction L with
  | nil => rfl
  | cons x xs ih =>
    rcases List.pairwise_cons.mp h with ⟨hx, hxs⟩
    simp only [List.sum_cons, List.foldr_cons]
    rw [ih hxs, add_eq_lor_of_and_eq_zero]
    exact land_foldr_lor_eq_zero hx


theorem accFun_nil (g : String) : accFun [] g = none := rfl

theorem accFun_cons (pf : String) (pv : Nat) (rest : List (String × Nat))
    (g : String) :
    accFun ((pf, pv) :: rest) g = if pf = g then some pv else accFun rest g := by
  by_cases h : pf = g
  · subst h
    simp [accFun, List.find?]
  · have hb : (pf == g) = false := by simpa using h
    simp [accFun, List.find?, hb, h]

theorem accFun_upsertBits (l : List (String × Nat)) (f g : String) (b : Nat) :
    accFun (upsertBits l f b) g =
      if g = f then some ((accFun l f).getD 0 + b) else accFun l g := by
  induction l with
  | nil =>
    simp only [upsertBits, accFun_nil]
    by_cases hgf : g = f
    · subst hgf
      rw [if_pos rfl, accFun_cons, if_pos rfl]
      simp
    · rw [if_neg hgf, accFun_cons, if_neg (fun h => hgf h.symm), accFun_nil]
  | cons p rest ih =>
    obtain ⟨pf, pv⟩ := p
    by_cases hpf : pf = f
    · subst hpf
      simp only [upsertBits, eq_self_iff_true, if_true]
      rw [accFun_cons, accFun_cons, accFun_cons]
      by_cases hgf : g = pf
      · subst hgf
        rw [if_pos rfl, if_pos rfl, if_pos rfl]
        simp
      · have h1 : ¬ pf = g := fun h => hgf h.symm
        rw [if_neg h1, if_neg hgf, if_neg h1]
    · simp only [upsertBits, if_neg hpf]
      rw [accFun_cons, accFun_cons, accFun_cons, ih]
      by_cases hgf : g = f
      · subst hgf
        rw [if_neg (fun h : pf = g => hpf h), if_pos rfl, if_pos rfl,
          if_neg hpf]
      · rw [if_neg hgf, if_neg hgf]


theorem requestedEntries_cons_none (reg : LabelRegistry) (lab : String)
    (rest : List String) (h : lookupLabel reg lab = none) :
    requestedEntries reg (lab :: rest) = requestedEntries reg rest := by
  simp [requestedEntries, List.filterMap_cons, h]

theorem requestedEntries_cons_some (reg : LabelRegistry) (lab : String)
    (rest : List String) (e : LabelEntry) (h : lookupLabel reg lab = some e) :
    requestedEntries reg (lab :: rest) = e :: requestedEntries reg rest := by
  simp [requestedEntries, List.filterMap_cons, h]

theorem sumMask_cons_none (reg : LabelRegistry) (lab : String)
    (rest : List String) (f : String) (h : lookupLabel reg lab = none) :
    sumMask reg (lab :: rest) f = sumMask reg rest f := by
  simp [sumMask, requestedEntries_cons_none reg lab rest h]

theorem sumMask_cons_some (reg : LabelRegistry) (lab : String)
    (rest : List String) (f : String) (e : LabelEntry)
    (h : lookupLabel reg lab = some e) :
    sumMask reg (lab :: rest) f =
      (if e.bitmask_field_name = f then e.bits else 0) +
        sumMask reg rest f := by
  rw [sumMask, requestedEntries_cons_some reg lab rest e h, List.filter_cons]
  by_cases hf : e.bitmask_field_name = f
  · simp only [hf, beq_self_eq_true, if_pos]
    simp [sumMask]
  · have hb : (e.bitmask_field_name == f) = false := by simpa using hf
    simp [hb, hf, sumMask]

theorem sumMask_eq_zero (reg : LabelRegistry) (labels : List String)
    (f : String)
    (h : f ∉ (requestedEntries reg labels).map
      (fun e => e.bitmask_field_name)) :
    sumMask reg labels f = 0 := by
  have hnil : (requestedEntries reg labels).filter
      (fun e => e.bitmask_field_name == f) = [] := by
    rw [List.filter_eq_nil_iff]
    intro e he
    simp only [beq_iff_eq]
    exact fun hf => h (List.mem_map.mpr ⟨e, he, hf⟩)
  simp [sumMask, hnil]

theorem accVal_foldl (reg : LabelRegistry) (labels : List String)
    (acc : List (String × Nat)) (f : String) :
    accVal (labels.foldl (fun acc label =>
      match lookupLabel reg label with
      | some e => upsertBits acc e.bitmask_field_name e.bits
      | none => acc) acc) f = accVal acc f + sumMask reg labels f := by
  induction labels generalizing acc with
  | nil =>
    simp [sumMask, requestedEntries]
  | cons lab rest ih =>
    simp only [List.foldl_cons]
    rcases hlook : lookupLabel reg lab with _ | e
    · rw [ih, sumMask_cons_none reg lab rest f hlook]
    · rw [ih, sumMask_cons_some reg lab rest f e hlook]
      unfold accVal
      rw [accFun_upsertBits]
      by_cases hf : f = e.bitmask_field_name
      · subst hf
        rw [if_pos rfl, if_pos rfl]
        simp only [Option.getD_some]
        omega
      · rw [if_neg hf, if_neg (fun h => hf h.symm)]
        omega

theorem accFun_isSome_foldl (reg : LabelRegistry) (labels : List String)
    (acc : List (String × Nat)) (f : String) :
    (accFun (labels.foldl (fun acc label =>
      match lookupLabel reg label with
      | some e => upsertBits acc e.bitmask_field_name e.bits
      | none => acc) acc) f).isSome = true ↔
      (accFun acc f).isSome = true ∨
        f ∈ (requestedEntries reg labels).map
          (fun e => e.bitmask_field_name) := by
  induction labels generalizing acc with
  | nil =>
    simp [requestedEntries]
  | cons lab rest ih =>
    simp only [List.foldl_cons]
    rcases hlook : lookupLabel reg lab with _ | e
    · rw [ih, requestedEntries_cons_none reg lab rest hlook]
    · rw [ih, requestedEntries_cons_some reg lab rest e hlook]
      have hup : (accFun (upsertBits acc e.bitmask_field_name e.bits)
          f).isSome = true ↔
          (accFun acc f).isSome = true ∨ f = e.bitmask_field_name := by
        rw [accFun_upsertBits]
        by_cases hf : f = e.bitmask_field_name
        · simp [hf]
        · simp [hf]
      rw [hup]
      simp only [List.map_cons, List.mem_cons]
      tauto


theorem upsertBits_keys_mem (l : List (String × Nat)) (f : String) (b : Nat) :
    ∀ g ∈ keysOf (upsertBits l f b), g ∈ keysOf l ∨ g = f := by
  induction l with
  | nil => simp [upsertBits, keysOf]
  | cons p rest ih =>
    obtain ⟨pf, pv⟩ := p
    by_cases hpf : pf = f
    · subst hpf
      simp only [upsertBits, eq_self_iff_true, if_true]
      intro g hg
      simp only [keysOf, List.map_cons, List.mem_cons] at hg ⊢
      tauto
    · simp only [upsertBits, if_neg hpf]
      intro g hg
      simp only [keysOf, List.map_cons, List.mem_cons] at hg ⊢
      rcases hg with h | h
      · exact Or.inl (Or.inl h)
      · rcases ih g h with h2 | h2
        · exact Or.inl (Or.inr h2)
        · exact Or.inr h2

theorem upsertBits_keys_nodup (l : List (String × Nat)) (f : String)
    (b : Nat) (h : (keysOf l).Nodup) :
    (keysOf (upsertBits l f b)).Nodup := by
  induction l with
  | nil => simp [upsertBits, keysOf]
  | cons p rest ih =>
    obtain ⟨pf, pv⟩ := p
    simp only [keysOf, List.map_cons, List.nodup_cons] at h
    by_cases hpf : pf = f
    · subst hpf
      simp only [upsertBits, eq_self_iff_true, if_true]
      simp only [keysOf, List.map_cons, List.nodup_cons]
      exact h
    · simp only [upsertBits, if_neg hpf]
      simp only [keysOf, List.map_cons, List.nodup_cons]
      refine ⟨fun hmem => ?_, ih h.2⟩
      rcases upsertBits_keys_mem rest f b pf hmem with h2 | h2
      · exact h.1 h2
      · exact hpf h2

theorem accumulate_bits_keys_nodup (reg : LabelRegistry)
    (labels : List String) :
    (keysOf (accumulate_bits reg labels)).Nodup := by
  suffices h : ∀ acc : List (String × Nat), (keysOf acc).Nodup →
      (keysOf (labels.foldl (fun acc label =>
        match lookupLabel reg label with
        | some e => upsertBits acc e.bitmask_field_name e.bits
        | none => acc) acc)).Nodup by
    exact h [] (by simp [keysOf])
  induction labels with
  | nil => exact fun acc hacc => hacc
  | cons lab rest ih =>
    intro acc hacc
    simp only [List.foldl_cons]
    rcases hlook : lookupLabel reg lab with _ | e
    · exact ih acc hacc
    · exact ih _ (upsertBits_keys_nodup acc _ _ hacc)

theorem accFun_eq_of_mem (l : List (String × Nat))
    (h : (keysOf l).Nodup) (p : String × Nat) (hp : p ∈ l) :
    accFun l p.1 = some p.2 := by
  induction l with
  | nil => cases hp
  | cons q rest ih =>
    obtain ⟨qf, qv⟩ := q
    simp only [keysOf, List.map_cons, List.nodup_cons] at h
    rcases List.mem_cons.mp hp with heq | hmem
    · subst heq
      rw [accFun_cons, if_pos rfl]
    · have hne : qf ≠ p.1 := fun hqp => h.1 (by
        rw [hqp]
        exact List.mem_map_of_mem Prod.fst hmem)
      rw [accFun_cons, if_neg hne]
      exact ih h.2 hmem

theorem mem_of_accFun (l : List (String × Nat)) (f : String) (m : Nat)
    (h : accFun l f = some m) : (f, m) ∈ l := by
  induction l with
  | nil => simp [accFun] at h
  | cons q rest ih =>
    obtain ⟨qf, qv⟩ := q
    rw [accFun_cons] at h
    by_cases hqf : qf = f
    · rw [if_pos hqf] at h
      have hv : qv = m := by simpa using h
      subst hv
      subst hqf
      exact List.mem_cons_self _ _
    · rw [if_neg hqf] at h
      exact List.mem_cons_of_mem _ (ih h)


theorem accVal_accumulate (reg : LabelRegistry) (labels : List String)
    (f : String) :
    accVal (accumulate_bits reg labels) f = sumMask reg labels f := by
  unfold accumulate_bits
  rw [accVal_foldl]
  simp [accVal, accFun]

theorem accFun_isSome_accumulate (reg : LabelRegistry)
    (labels : List String) (f : String) :
    (accFun (accumulate_bits reg labels) f).isSome = true ↔
      f ∈ (requestedEntries reg labels).map
        (fun e => e.bitmask_field_name) := by
  unfold accumulate_bits
  rw [accFun_isSome_foldl]
  simp [accFun]

theorem has_all_labels_iff_sum (reg : LabelRegistry) (labels : List String)
    (node : String → Nat) :
    has_all_labels reg labels node = true ↔
      ∀ f ∈ (requestedEntries reg labels).map
        (fun e => e.bitmask_field_name),
        node f &&& sumMask reg labels f ≠ 0 := by
  rw [has_all_labels, List.all_eq_true]
  constructor
  · intro h f hf
    have hsome := (accFun_isSome_accumulate reg labels f).mpr hf
    obtain ⟨m, hm⟩ := Option.isSome_iff_exists.mp hsome
    have hval : m = sumMask reg labels f := by
      have hv := accVal_accumulate reg labels f
      unfold accVal at hv
      rw [hm] at hv
      simpa using hv
    have hmem : (f, m) ∈ accumulate_bits reg labels :=
      mem_of_accFun _ f m hm
    have hp := h (f, m) hmem
    rw [hval] at hp
    simpa [Nat.pos_iff_ne_zero] using hp
  · intro h p hp
    have hfun : accFun (accumulate_bits reg labels) p.1 = some p.2 :=
      accFun_eq_of_mem _ (accumulate_bits_keys_nodup reg labels) p hp
    have hsome : (accFun (accumulate_bits reg labels) p.1).isSome = true := by
      rw [hfun]
      rfl
    have hf := (accFun_isSome_accumulate reg labels p.1).mp hsome
    have hval : p.2 = sumMask reg labels p.1 := by
      have hv := accVal_accumulate reg labels p.1
      unfold accVal at hv
      rw [hfun] at hv
      simpa using hv
    have := h p.1 hf
    rw [← hval] at this
    simpa [Nat.pos_iff_ne_zero] using this

theorem lookupLabel_label (reg : LabelRegistry) (lab : String)
    (e : LabelEntry) (h : lookupLabel reg lab = some e) : e.label = lab := by
  have := List.find?_some h
  simpa using this

theorem lookupLabel_mem (reg : LabelRegistry) (lab : String) (e : LabelEntry)
    (h : lookupLabel reg lab = some e) : e ∈ reg :=
  List.mem_of_find?_eq_some h

theorem requestedEntries_nodup (reg : LabelRegistry) (labels : List String)
    (h : labels.Nodup) : (requestedEntries reg labels).Nodup := by
  apply List.Nodup.filterMap ?_ h
  intro a a' b hb hb'
  have h1 := lookupLabel_label reg a b hb
  have h2 := lookupLabel_label reg a' b hb'
  rw [← h1, ← h2]

theorem requestedEntries_sub (reg : LabelRegistry) (labels : List String) :
    ∀ e ∈ requestedEntries reg labels, e ∈ reg := by
  intro e he
  simp only [requestedEntries, List.mem_filterMap] at he
  obtain ⟨lab, _, hlook⟩ := he
  exact lookupLabel_mem reg lab e hlook

theorem sumMask_eq_fieldMask (reg : LabelRegistry) (labels : List String)
    (f : String) (hwf : WellFormedRegistry reg) (hnd : labels.Nodup) :
    sumMask reg labels f = fieldMask reg labels f := by
  unfold sumMask fieldMask
  apply sum_eq_foldr_lor
  rw [List.pairwise_map]
  have hnodup : ((requestedEntries reg labels).filter
      (fun e => e.bitmask_field_name == f)).Nodup :=
    (requestedEntries_nodup reg labels hnd).filter _
  refine List.Pairwise.imp_of_mem ?_ hnodup
  intro e1 e2 h1 h2 hne
  have he1 : e1 ∈ reg :=
    requestedEntries_sub reg labels e1 (List.mem_of_mem_filter h1)
  have he2 : e2 ∈ reg :=
    requestedEntries_sub reg labels e2 (List.mem_of_mem_filter h2)
  have hf1 : e1.bitmask_field_name = f := by
    simpa using (List.mem_filter.mp h1).2
  have hf2 : e2.bitmask_field_name = f := by
    simpa using (List.mem_filter.mp h2).2
  obtain ⟨k1, _, hk1⟩ := hwf.2.1 e1 he1
  obtain ⟨k2, _, hk2⟩ := hwf.2.1 e2 he2
  have hbitsne : e1.bits ≠ e2.bits := fun hb =>
    hne (hwf.2.2 e1 he1 e2 he2 (hf1.trans hf2.symm) hb)
  have hkne : k1 ≠ k2 := fun hk => hbitsne (by rw [hk1, hk2, hk])
  rw [hk1, hk2]
  exact two_pow_land_eq_zero hkne

/-- C3: for a well-formed registry and a duplicate-free label request,
`has_all_labels` matches a node iff for every bitmask field hosting at least
one requested label, the bitwise AND of the node's field value with the OR
of the requested labels' bit weights on that field is nonzero (per-field OR,
across-field AND); and the concrete examples of the claim hold: with
A→(F1, bit 1), B→(F1, bit 2), C→(F2, bit 1), a node with F1=1, F2=1 matches
{A,C} but not {B,C}, and a node with F1=3, F2=0 matches {A} and {B} but
neither {C} nor {A,C}. -/
theorem C3_has_all_labels_semantics :
    (∀ (reg : LabelRegistry) (labels : List String) (node : String → Nat),
      WellFormedRegistry reg → labels.Nodup →
      (has_all_labels reg labels node = true ↔
        spec_matches reg labels node)) ∧
    has_all_labels c3reg ["A", "C"] c3node1 = true ∧
    has_all_labels c3reg ["B", "C"] c3node1 = false ∧
    has_all_labels c3reg ["A"] c3node2 = true ∧
    has_all_labels c3reg ["B"] c3node2 = true ∧
    has_all_labels c3reg ["C"] c3node2 = false ∧
    has_all_labels c3reg ["A", "C"] c3node2 = false := by
  refine ⟨?_, by decide, by decide, by decide, by decide, by decide,
    by decide⟩
  intro reg labels node hwf hnd
  rw [has_all_labels_iff_sum]
  unfold spec_matches
  constructor
  · intro h f hf
    rw [← sumMask_eq_fieldMask reg labels f hwf hnd]
    exact h f hf
  · intro h f hf
    rw [sumMask_eq_fieldMask reg labels f hwf hnd]
    exact h f hf

/-- C3 witness: the semantics instantiated on the claim's example registry
and first node. -/
theorem C3_has_all_labels_semantics_witness :
    has_all_labels c3reg ["A", "C"] c3node1 = true ↔
      spec_matches c3reg ["A", "C"] c3node1 :=
  C3_has_all_labels_semantics.1 c3reg ["A", "C"] c3node1 (by decide)
    (by decide)

end Kolibri
